import Mathlib

/-!
Verification of the schema-composition and selection-merging core of a
federated gateway (packages/apollo-gateway/src/FieldSet.ts and the
composition utilities of packages/apollo-federation).

The embedding is shallow: the JS `Map`-based grouping loops become an
insertion-ordered association-list fold, GraphQL AST nodes become inductive
value trees, and object identity of `GraphQLCompositeType` values (JS `===`
and `Map` keying is by reference) is modelled by an explicit `id` field.
-/

set_option maxHeartbeats 1000000

namespace ApolloCore

/-! ### Insertion-ordered association lists

JS `Map` iterates entries in insertion order; `Map.set` on an existing key
keeps the entry's position.  We model the maps built by the grouping loops in
`FieldSet.ts` as association lists with exactly this update discipline. -/

variable {κ : Type} {α : Type} {β : Type} [DecidableEq κ]

def getAssoc : List (κ × β) → κ → Option β
  | [], _ => none
  | (k', b) :: rest, k => if k' = k then some b else getAssoc rest k

def setAssoc : List (κ × β) → κ → β → List (κ × β)
  | [], k, b => [(k, b)]
  | (k', b') :: rest, k, b =>
      if k' = k then (k, b) :: rest else (k', b') :: setAssoc rest k b

/-- The distinct elements of a list in first-appearance order, skipping those
already in `seen`. -/
def distinctKeys : List κ → List κ → List κ
  | _, [] => []
  | seen, k :: ks =>
      if k ∈ seen then distinctKeys seen ks else k :: distinctKeys (k :: seen) ks

/-- One step of a JS grouping loop: look the key up, update the entry (or
create it from a per-element default), and write it back. -/
def groupStep (key : α → κ) (dflt : α → β) (upd : β → α → β)
    (acc : List (κ × β)) (a : α) : List (κ × β) :=
  setAssoc acc (key a) (upd ((getAssoc acc (key a)).getD (dflt a)) a)

def groupFold (key : α → κ) (dflt : α → β) (upd : β → α → β)
    (xs : List α) : List (κ × β) :=
  xs.foldl (groupStep key dflt upd) []

/-- The value a grouping loop accumulates for one key, as a function of the
(nonempty) list of elements carrying that key. -/
def applyGroup [Inhabited β] (dflt : α → β) (upd : β → α → β) : List α → β
  | [] => default
  | a :: as => as.foldl upd (upd (dflt a) a)

theorem getAssoc_setAssoc (l : List (κ × β)) (k k' : κ) (b : β) :
    getAssoc (setAssoc l k b) k' = if k = k' then some b else getAssoc l k' := by
  induction l with
  | nil =>
      by_cases h : k = k' <;> simp [setAssoc, getAssoc, h]
  | cons p rest ih =>
      obtain ⟨k₀, b₀⟩ := p
      by_cases h0 : k₀ = k
      · subst h0
        by_cases h : k₀ = k' <;> simp [setAssoc, getAssoc, h]
      · by_cases h : k₀ = k'
        · subst h
          have : ¬ k = k₀ := fun hk => h0 hk.symm
          simp [setAssoc, getAssoc, h0, this]
        · simp [setAssoc, getAssoc, h0, h, ih]

theorem setAssoc_keys_of_ne_none (l : List (κ × β)) (k : κ) (b : β)
    (h : getAssoc l k = none) : setAssoc l k b = l ++ [(k, b)] := by
  induction l with
  | nil => simp [setAssoc]
  | cons p rest ih =>
      obtain ⟨k₀, b₀⟩ := p
      by_cases h0 : k₀ = k
      · subst h0; simp [getAssoc] at h
      · simp [getAssoc, h0] at h
        simp [setAssoc, h0, ih h]

theorem setAssoc_keys_of_some (l : List (κ × β)) (k : κ) (b b₀ : β)
    (h : getAssoc l k = some b₀) :
    (setAssoc l k b).map Prod.fst = l.map Prod.fst := by
  induction l with
  | nil => simp [getAssoc] at h
  | cons p rest ih =>
      obtain ⟨k₁, b₁⟩ := p
      by_cases h1 : k₁ = k
      · subst h1; simp [setAssoc]
      · simp [getAssoc, h1] at h
        simp [setAssoc, h1, ih h]

theorem getAssoc_eq_none (l : List (κ × β)) (k : κ)
    (h : k ∉ l.map Prod.fst) : getAssoc l k = none := by
  induction l with
  | nil => simp [getAssoc]
  | cons p rest ih =>
      obtain ⟨k₀, b₀⟩ := p
      simp only [List.map_cons, List.mem_cons] at h
      push_neg at h
      have : ¬ k₀ = k := fun hk => h.1 hk.symm
      simp [getAssoc, this, ih h.2]

theorem getAssoc_isSome_of_mem (l : List (κ × β)) (k : κ)
    (h : k ∈ l.map Prod.fst) : (getAssoc l k).isSome := by
  induction l with
  | nil => simp at h
  | cons p rest ih =>
      obtain ⟨k₀, b₀⟩ := p
      by_cases h0 : k₀ = k
      · simp [getAssoc, h0]
      · simp only [List.map_cons, List.mem_cons] at h
        rcases h with h | h
        · exact absurd h.symm h0
        · simp [getAssoc, h0, ih h]

/-- Extensionality: association lists with the same (duplicate-free) key
sequence and the same lookup function are equal. -/
theorem assoc_ext (l₁ l₂ : List (κ × β))
    (hk : l₁.map Prod.fst = l₂.map Prod.fst)
    (hnd : (l₁.map Prod.fst).Nodup)
    (hget : ∀ k, getAssoc l₁ k = getAssoc l₂ k) : l₁ = l₂ := by
  induction l₁ generalizing l₂ with
  | nil =>
      cases l₂ with
      | nil => rfl
      | cons q t₂ => simp at hk
  | cons p t₁ ih =>
      obtain ⟨k₀, b₀⟩ := p
      cases l₂ with
      | nil => simp at hk
      | cons q t₂ =>
          obtain ⟨k₀', b₀'⟩ := q
          simp only [List.map_cons, List.cons.injEq] at hk
          obtain ⟨hkeq, htkeys⟩ := hk
          subst hkeq
          have hb : b₀ = b₀' := by
            have := hget k₀
            simp [getAssoc] at this
            exact this
          subst hb
          simp only [List.map_cons, List.nodup_cons] at hnd
          have htail : t₁ = t₂ := by
            apply ih t₂ htkeys hnd.2
            intro k
            by_cases hk0 : k = k₀
            · subst hk0
              have h₁ : getAssoc t₁ k = none :=
                getAssoc_eq_none _ _ hnd.1
              have h₂ : getAssoc t₂ k = none := by
                apply getAssoc_eq_none
                rw [← htkeys]; exact hnd.1
              rw [h₁, h₂]
            · have := hget k
              have hne : ¬ k₀ = k := fun h => hk0 h.symm
              simpa [getAssoc, hne] using this
          rw [htail]

theorem mem_distinctKeys (l : List κ) (seen : List κ) (k : κ) :
    k ∈ distinctKeys seen l ↔ (k ∈ l ∧ k ∉ seen) := by
  induction l generalizing seen with
  | nil => simp [distinctKeys]
  | cons k₀ ks ih =>
      by_cases h0 : k₀ ∈ seen
      · simp only [distinctKeys, if_pos h0, ih, List.mem_cons]
        constructor
        · rintro ⟨hm, hs⟩; exact ⟨Or.inr hm, hs⟩
        · rintro ⟨hm | hm, hs⟩
          · subst hm; exact absurd h0 hs
          · exact ⟨hm, hs⟩
      · simp only [distinctKeys, if_neg h0, List.mem_cons, ih]
        constructor
        · rintro (rfl | ⟨hm, hs⟩)
          · exact ⟨Or.inl rfl, h0⟩
          · push_neg at hs
            exact ⟨Or.inr hm, hs.2⟩
        · rintro ⟨rfl | hm, hs⟩
          · exact Or.inl rfl
          · by_cases hk : k = k₀
            · exact Or.inl hk
            · refine Or.inr ⟨hm, ?_⟩
              intro hc
              rcases hc with h | h
              · exact hk h
              · exact hs h

theorem distinctKeys_congr (l : List κ) (s₁ s₂ : List κ)
    (h : ∀ k, k ∈ s₁ ↔ k ∈ s₂) : distinctKeys s₁ l = distinctKeys s₂ l := by
  induction l generalizing s₁ s₂ with
  | nil => simp [distinctKeys]
  | cons k₀ ks ih =>
      by_cases h0 : k₀ ∈ s₁
      · have h0' : k₀ ∈ s₂ := (h k₀).mp h0
        simp only [distinctKeys, if_pos h0, if_pos h0']
        exact ih s₁ s₂ h
      · have h0' : k₀ ∉ s₂ := fun hm => h0 ((h k₀).mpr hm)
        simp only [distinctKeys, if_neg h0, if_neg h0']
        congr 1
        apply ih
        intro k
        simp only [List.mem_cons]
        exact or_congr Iff.rfl (h k)

theorem distinctKeys_nodup (l : List κ) (seen : List κ) :
    (distinctKeys seen l).Nodup := by
  induction l generalizing seen with
  | nil => simp [distinctKeys]
  | cons k₀ ks ih =>
      by_cases h0 : k₀ ∈ seen
      · simp only [distinctKeys, if_pos h0]; exact ih seen
      · simp only [distinctKeys, if_neg h0, List.nodup_cons]
        refine ⟨?_, ih _⟩
        rw [mem_distinctKeys]
        rintro ⟨_, hs⟩
        exact hs (List.mem_cons_self _ _)

theorem distinctKeys_of_all_mem (l : List κ) (seen : List κ)
    (h : ∀ k ∈ l, k ∈ seen) : distinctKeys seen l = [] := by
  induction l with
  | nil => simp [distinctKeys]
  | cons k₀ ks ih =>
      have h0 : k₀ ∈ seen := h k₀ (List.mem_cons_self _ _)
      simp only [distinctKeys, if_pos h0]
      exact ih fun k hk => h k (List.mem_cons_of_mem _ hk)

theorem distinctKeys_append (l₁ l₂ : List κ) (seen : List κ) :
    distinctKeys seen (l₁ ++ l₂) =
      distinctKeys seen l₁ ++ distinctKeys (seen ++ l₁) l₂ := by
  induction l₁ generalizing seen with
  | nil =>
      simp [distinctKeys]
  | cons k₀ ks ih =>
      by_cases h0 : k₀ ∈ seen
      · have e1 : distinctKeys seen ((k₀ :: ks) ++ l₂) = distinctKeys seen (ks ++ l₂) := by
          rw [List.cons_append]
          simp [distinctKeys, h0]
        have e2 : distinctKeys seen (k₀ :: ks) = distinctKeys seen ks := by
          simp [distinctKeys, h0]
        rw [e1, e2, ih]
        congr 1
        apply distinctKeys_congr
        intro k
        simp only [List.mem_append, List.mem_cons]
        constructor
        · rintro (h | h)
          · exact Or.inl h
          · exact Or.inr (Or.inr h)
        · rintro (h | rfl | h)
          · exact Or.inl h
          · exact Or.inl h0
          · exact Or.inr h
  -- for a fresh key, both sides start with `k₀` and continue with it marked seen
      · have e1 : distinctKeys seen ((k₀ :: ks) ++ l₂) =
            k₀ :: distinctKeys (k₀ :: seen) (ks ++ l₂) := by
          rw [List.cons_append]
          simp [distinctKeys, h0]
        have e2 : distinctKeys seen (k₀ :: ks) = k₀ :: distinctKeys (k₀ :: seen) ks := by
          simp [distinctKeys, h0]
        rw [e1, e2, ih, List.cons_append]
        congr 2
        apply distinctKeys_congr
        intro k
        simp only [List.mem_append, List.mem_cons]
        tauto

/-- Key sequence of a grouping fold: existing keys stay put, new keys are
appended in first-appearance order. -/
theorem groupFold_keys (key : α → κ) (dflt : α → β) (upd : β → α → β)
    (xs : List α) (acc : List (κ × β)) :
    (xs.foldl (groupStep key dflt upd) acc).map Prod.fst =
      acc.map Prod.fst ++ distinctKeys (acc.map Prod.fst) (xs.map key) := by
  induction xs generalizing acc with
  | nil => simp [distinctKeys]
  | cons x rest ih =>
      simp only [List.foldl_cons, List.map_cons]
      rcases hx : getAssoc acc (key x) with _ | b₀
      · have hkeys : (groupStep key dflt upd acc x).map Prod.fst =
            acc.map Prod.fst ++ [key x] := by
          simp [groupStep, setAssoc_keys_of_ne_none _ _ _ hx]
        have hnotmem : key x ∉ acc.map Prod.fst := by
          intro hm
          have := getAssoc_isSome_of_mem acc (key x) hm
          rw [hx] at this
          simp at this
        rw [ih, hkeys]
        have : distinctKeys (acc.map Prod.fst) (key x :: rest.map key) =
            key x :: distinctKeys (key x :: acc.map Prod.fst) (rest.map key) := by
          simp [distinctKeys, hnotmem]
        rw [this]
        have hcongr : distinctKeys (acc.map Prod.fst ++ [key x]) (rest.map key) =
            distinctKeys (key x :: acc.map Prod.fst) (rest.map key) := by
          apply distinctKeys_congr
          intro k
          simp only [List.mem_append, List.mem_cons, List.mem_singleton]
          tauto
        rw [hcongr]
        simp
      · have hkeys : (groupStep key dflt upd acc x).map Prod.fst =
            acc.map Prod.fst := by
          simp [groupStep, setAssoc_keys_of_some _ _ _ _ hx]
        have hmem : key x ∈ acc.map Prod.fst := by
          by_contra hm
          rw [getAssoc_eq_none _ _ hm] at hx
          exact Option.noConfusion hx
        rw [ih, hkeys]
        simp [distinctKeys, hmem]

/-- Lookup after a grouping fold: the per-key value is the `upd`-fold of the
elements carrying that key, seeded by the first element's default. -/
theorem groupFold_getAssoc (key : α → κ) (dflt : α → β) (upd : β → α → β)
    (xs : List α) (acc : List (κ × β)) (k : κ) :
    getAssoc (xs.foldl (groupStep key dflt upd) acc) k =
      match getAssoc acc k with
      | some b => some ((xs.filter (fun a => key a = k)).foldl upd b)
      | none =>
        match xs.filter (fun a => key a = k) with
        | [] => none
        | a :: as => some (as.foldl upd (upd (dflt a) a)) := by
  induction xs generalizing acc with
  | nil =>
      rcases h : getAssoc acc k with _ | b <;> simp [h]
  | cons x rest ih =>
      simp only [List.foldl_cons]
      rw [ih]
      by_cases hkx : key x = k
      · have hacc' : getAssoc (groupStep key dflt upd acc x) k =
            some (upd ((getAssoc acc k).getD (dflt x)) x) := by
          simp only [groupStep, hkx]
          rw [getAssoc_setAssoc]
          simp
        rw [hacc']
        have hfil : (x :: rest).filter (fun a => key a = k) =
            x :: rest.filter (fun a => key a = k) := by
          simp [List.filter_cons, hkx]
        rw [hfil]
        rcases h : getAssoc acc k with _ | b
        · simp
        · simp
      · have hacc' : getAssoc (groupStep key dflt upd acc x) k =
            getAssoc acc k := by
          simp only [groupStep]
          rw [getAssoc_setAssoc]
          simp [hkx]
        rw [hacc']
        have hfil : (x :: rest).filter (fun a => key a = k) =
            rest.filter (fun a => key a = k) := by
          simp [List.filter_cons, hkx]
        rw [hfil]

theorem getAssoc_graph (l : List κ) (f : κ → β) (k : κ) :
    getAssoc (l.map (fun k' => (k', f k'))) k =
      if k ∈ l then some (f k) else none := by
  induction l with
  | nil => simp [getAssoc]
  | cons k₀ ks ih =>
      by_cases h0 : k₀ = k
      · subst h0; simp [getAssoc]
      · have : ¬ k = k₀ := fun h => h0 h.symm
        simp [getAssoc, h0, ih, this]

/-- The central characterization of the JS grouping loops: a `groupFold`
produces one entry per distinct key in first-appearance order, whose value is
the `applyGroup` of precisely the elements carrying that key. -/
theorem groupFold_eq [Inhabited β] (key : α → κ) (dflt : α → β) (upd : β → α → β)
    (xs : List α) :
    groupFold key dflt upd xs =
      (distinctKeys [] (xs.map key)).map
        (fun k => (k, applyGroup dflt upd (xs.filter (fun a => key a = k)))) := by
  apply assoc_ext
  · rw [groupFold, groupFold_keys]
    rw [List.map_map]
    simp only [List.map_nil, List.nil_append]
    exact (List.map_id _).symm
  · rw [groupFold, groupFold_keys]
    simp only [List.map_nil, List.nil_append]
    exact distinctKeys_nodup _ _
  · intro k
    rw [groupFold, groupFold_getAssoc]
    simp only [getAssoc, getAssoc_graph]
    by_cases hk : k ∈ xs.map key
    · have hmem : k ∈ distinctKeys [] (xs.map key) :=
        (mem_distinctKeys _ _ _).mpr ⟨hk, by simp⟩
      rw [if_pos hmem]
      rcases hfe : xs.filter (fun a => key a = k) with _ | ⟨a, as⟩
      · exfalso
        obtain ⟨a, ha, hae⟩ := List.mem_map.mp hk
        have := List.filter_eq_nil_iff.mp hfe a ha
        simp [hae] at this
      · simp [applyGroup, hfe]
    · have hmem : k ∉ distinctKeys [] (xs.map key) := by
        rw [mem_distinctKeys]
        rintro ⟨h, _⟩
        exact hk h
      rw [if_neg hmem]
      have hfil : xs.filter (fun a => key a = k) = [] := by
        apply List.filter_eq_nil_iff.mpr
        intro a ha
        simp only [decide_eq_true_eq]
        intro hke
        exact hk (List.mem_map.mpr ⟨a, ha, hke⟩)
      simp [hfil]

theorem foldl_append_singleton (l : List α) (init : List α) :
    l.foldl (fun g a => g ++ [a]) init = init ++ l := by
  induction l generalizing init with
  | nil => simp
  | cons a as ih => simp [ih]

/-- Specialization to the plain list-collecting `groupBy` of `FieldSet.ts`:
the group for each key is exactly the sublist of elements with that key. -/
theorem groupFold_list_eq (key : α → κ) (xs : List α) :
    groupFold key (fun _ => ([] : List α)) (fun g a => g ++ [a]) xs =
      (distinctKeys [] (xs.map key)).map
        (fun k => (k, xs.filter (fun a => key a = k))) := by
  rw [groupFold_eq]
  apply List.map_congr_left
  intro k _
  rcases hfe : xs.filter (fun a => key a = k) with _ | ⟨a, as⟩
  · rfl
  · simp [applyGroup, foldl_append_singleton]

/-! ### The GraphQL document model used by `FieldSet.ts`

`GraphQLCompositeType` values are compared by JS reference (`===`, `Map`
keys); the `id` field stands for that object identity, so two values with the
same `name` but different `id` model two distinct runtime objects sharing a
name. -/

structure GraphQLCompositeType where
  id : Nat
  name : String
deriving DecidableEq, Repr, Inhabited

/-- The named (unwrapped) form of an output type together with whether it is
a composite (object/interface/union) type — all `isCompositeType` inspects. -/
structure GraphQLNamedTypeData where
  name : String
  composite : Bool
deriving DecidableEq, Repr, Inhabited

/-- Output type references: a named type possibly wrapped in List/NonNull. -/
inductive GraphQLOutputType where
  | named (t : GraphQLNamedTypeData)
  | list (ofType : GraphQLOutputType)
  | nonNull (ofType : GraphQLOutputType)
deriving DecidableEq, Repr, Inhabited

/-- `getNamedType` from graphql-js: unwrap List/NonNull down to the named type. -/
def getNamedType : GraphQLOutputType → GraphQLNamedTypeData
  | .named t => t
  | .list t => getNamedType t
  | .nonNull t => getNamedType t

def isCompositeType (t : GraphQLNamedTypeData) : Bool :=
  t.composite

/-- A resolved field definition (`GraphQLField`): name and return type. -/
structure GraphQLField where
  name : String
  type : GraphQLOutputType
deriving DecidableEq, Repr, Inhabited

/-- AST selection nodes.  A field node with `selectionSet = none` models a
field without braces; inline fragments always carry a selection set; fragment
spreads never do.  `kind` tags are encoded by the constructors. -/
inductive SelectionNode where
  | field (al : Option String) (name : String) (arguments : List String)
      (selectionSet : Option (List SelectionNode))
  | inlineFragment (typeCondition : String) (selectionSet : List SelectionNode)
  | fragmentSpread (name : String)
deriving Repr, Inhabited

/-- A `SelectionSetNode` is its list of selections (the constant `kind` tag is
dropped). -/
abbrev SelectionSetNode := List SelectionNode

/-- A `FieldNode` (the AST record held by a `Field`): alias, name, arguments
and optional selection set. -/
structure FieldNode where
  al : Option String
  name : String
  arguments : List String
  selectionSet : Option SelectionSetNode
deriving Repr, Inhabited

/-- A `FieldNode` is one of the shapes of `SelectionNode` (in the TS AST this
is subtyping; here it is an explicit injection). -/
def FieldNode.toNode (f : FieldNode) : SelectionNode :=
  .field f.al f.name f.arguments f.selectionSet

/-- `Scope` from `FieldSet.ts`: the declaring composite type, the possible
concrete object types, and an optional enclosing scope. -/
inductive Scope where
  | mk (parentType : GraphQLCompositeType)
      (possibleTypes : List GraphQLCompositeType)
      (enclosingScope : Option Scope)
deriving Inhabited

def Scope.parentType : Scope → GraphQLCompositeType
  | .mk t _ _ => t

/-- `Field` from `FieldSet.ts`. -/
structure Field where
  scope : Scope
  fieldNode : FieldNode
  fieldDef : GraphQLField
deriving Inhabited

abbrev FieldSet := List Field

/-! ### The `FieldSet.ts` algorithms -/

/-- Modelled from the spec: `getResponseName` is imported from
`./utilities/graphql`, which is not among the provided sources; the spec's
glossary defines the response name as "alias if given, else field name". -/
def getResponseName (node : FieldNode) : String :=
  node.al.getD node.name

/-- `groupByResponseName` = `groupBy(field => getResponseName(field.fieldNode))`. -/
def groupByResponseName (fields : FieldSet) : List (String × FieldSet) :=
  groupFold (fun field => getResponseName field.fieldNode)
    (fun _ => []) (fun g a => g ++ [a]) fields

/-- `groupByParentType` = `groupBy(field => field.scope.parentType)`; the JS
`Map` keys by object reference, modelled by `GraphQLCompositeType` equality
(which includes `id`). -/
def groupByParentType (fields : FieldSet) : List (GraphQLCompositeType × FieldSet) :=
  groupFold (fun field => field.scope.parentType)
    (fun _ => []) (fun g a => g ++ [a]) fields

/-- The selection set (if any) carried by a selection node; fields expose
their optional set, inline fragments always have one, spreads never do.
(`fieldNode.selectionSet` in the merge loop.) -/
def nodeSelectionSet : SelectionNode → Option (List SelectionNode)
  | .field _ _ _ ss => ss
  | .inlineFragment _ ss => some ss
  | .fragmentSpread _ => none

/-- `fieldNode.name.value` as used for the leaf (scalar) dedup check; fields
and fragment spreads have a `name`, inline fragments never reach this code
because they always carry a selection set. -/
def nodeName : SelectionNode → String
  | .field _ n _ _ => n
  | .inlineFragment tc _ => tc
  | .fragmentSpread n => n

/-- `fieldNode.name?.value || fieldNode.typeCondition.name.value`: grouping
key for branching items. -/
def branchKey : SelectionNode → String
  | .field _ n _ _ => n
  | .inlineFragment tc _ => tc
  | .fragmentSpread n => n

/-- One entry of the merge loop's `selectionMap`: the encountered nodes
(`field`, whose head is doubly pushed on first encounter — only index 0 is
ever read) and the concatenated child selections. -/
structure MergeEntry where
  field : List SelectionNode
  selections : List SelectionNode
deriving Inhabited

/-- Loop state of `mergeSelectionsSetsInternal`: leaf items collected in
`scalars`, branching items grouped in the insertion-ordered `selectionMap`. -/
structure MergeAcc where
  scalars : List SelectionNode
  groups : List (String × MergeEntry)
deriving Inhabited

def mergeEntryInit (n : SelectionNode) : MergeEntry :=
  { field := [n], selections := [] }

def mergeEntryUpd (e : MergeEntry) (n : SelectionNode) : MergeEntry :=
  { field := e.field ++ [n],
    selections := e.selections ++ (nodeSelectionSet n).getD [] }

/-- One iteration of the first loop of `mergeSelectionsSetsInternal`. -/
def mergeStep (st : MergeAcc) (n : SelectionNode) : MergeAcc :=
  match nodeSelectionSet n with
  | none =>
      if st.scalars.any (fun s => nodeName s = nodeName n) then st
      else { st with scalars := st.scalars ++ [n] }
  | some _ =>
      { st with groups := groupStep branchKey mergeEntryInit mergeEntryUpd st.groups n }

/-- `clone = {...field}; clone.selectionSet?.selections = merged`: the value
of the emitted node (the aliasing side effect of that assignment is studied
separately with the store-passing model below). -/
def setSelections (n : SelectionNode) (sels : List SelectionNode) : SelectionNode :=
  match n with
  | .field al nm args (some _) => .field al nm args (some sels)
  | .field al nm args none => .field al nm args none
  | .inlineFragment tc _ => .inlineFragment tc sels
  | .fragmentSpread nm => .fragmentSpread nm

mutual

def nodeSize : SelectionNode → Nat
  | .field _ _ _ none => 1
  | .field _ _ _ (some ss) => 1 + listSize ss
  | .inlineFragment _ ss => 1 + listSize ss
  | .fragmentSpread _ => 1

def listSize : List SelectionNode → Nat
  | [] => 0
  | n :: ns => nodeSize n + listSize ns

end

theorem listSize_append (a b : List SelectionNode) :
    listSize (a ++ b) = listSize a + listSize b := by
  induction a with
  | nil => simp [listSize]
  | cons n ns ih => simp [listSize, ih]; omega

theorem listSize_childSelections_lt (n : SelectionNode) :
    listSize ((nodeSelectionSet n).getD []) < nodeSize n := by
  cases n with
  | field al nm args ss =>
      cases ss with
      | none => simp [nodeSelectionSet, listSize, nodeSize]
      | some l => simp [nodeSelectionSet, nodeSize]
  | inlineFragment tc ss => simp [nodeSelectionSet, nodeSize]
  | fragmentSpread nm => simp [nodeSelectionSet, listSize, nodeSize]

theorem listSize_flatMap_lt (l : List SelectionNode) (h : l ≠ []) :
    listSize (l.flatMap (fun n => (nodeSelectionSet n).getD [])) < listSize l := by
  induction l with
  | nil => exact absurd rfl h
  | cons n ns ih =>
      rcases ns with _ | ⟨m, ms⟩
      · simpa [listSize, listSize_append] using listSize_childSelections_lt n
      · have h1 := listSize_childSelections_lt n
        have h2 := ih (by simp)
        simp only [List.flatMap_cons, listSize_append, listSize] at h2 ⊢
        omega

theorem listSize_sublist_le (a b : List SelectionNode) (h : a.Sublist b) :
    listSize a ≤ listSize b := by
  induction h with
  | slnil => exact Nat.le_refl _
  | cons n h ih => simp only [listSize]; omega
  | cons₂ n h ih => simp only [listSize]; omega

/-- The grouped child selections collected by the first loop: for every entry
of the `selectionMap`, `selections` is the concatenation of the child
selections of the branching nodes carrying the entry's key. -/
theorem mergeAcc_groups_eq (xs : List SelectionNode) (st : MergeAcc) :
    (xs.foldl mergeStep st).groups =
      (xs.filter (fun n => (nodeSelectionSet n).isSome)).foldl
        (groupStep branchKey mergeEntryInit mergeEntryUpd) st.groups := by
  induction xs generalizing st with
  | nil => simp
  | cons n ns ih =>
      simp only [List.foldl_cons, List.filter_cons]
      rcases h : nodeSelectionSet n with _ | ss
      · have : mergeStep st n =
            { st with scalars := if st.scalars.any (fun s => nodeName s = nodeName n)
                then st.scalars else st.scalars ++ [n] } := by
          simp only [mergeStep, h]
          split <;> rfl
        rw [this, ih]
        simp [h]
      · have hb : (nodeSelectionSet n).isSome = true := by simp [h]
        have : mergeStep st n =
            { st with groups := groupStep branchKey mergeEntryInit mergeEntryUpd st.groups n } := by
          simp [mergeStep, h]
        rw [this, ih]
        simp [hb]

theorem mergeAcc_scalars_eq (xs : List SelectionNode) (st : MergeAcc) :
    (xs.foldl mergeStep st).scalars =
      (xs.filter (fun n => ¬ (nodeSelectionSet n).isSome)).foldl
        (fun acc n => if acc.any (fun s => nodeName s = nodeName n)
          then acc else acc ++ [n]) st.scalars := by
  induction xs generalizing st with
  | nil => simp
  | cons n ns ih =>
      simp only [List.foldl_cons, List.filter_cons]
      rcases h : nodeSelectionSet n with _ | ss
      · have : mergeStep st n =
            { st with scalars := if st.scalars.any (fun s => nodeName s = nodeName n)
                then st.scalars else st.scalars ++ [n] } := by
          simp only [mergeStep, h]
          split <;> rfl
        rw [this, ih]
        simp [h]
      · have : mergeStep st n =
            { st with groups := groupStep branchKey mergeEntryInit mergeEntryUpd st.groups n } := by
          simp [mergeStep, h]
        rw [this, ih]
        simp [h]

/-- `applyGroup` for the merge map's entries, computed in closed form. -/
theorem applyGroup_mergeEntry (a : SelectionNode) (as : List SelectionNode) :
    applyGroup mergeEntryInit mergeEntryUpd (a :: as) =
      { field := a :: a :: as,
        selections := (a :: as).flatMap (fun n => (nodeSelectionSet n).getD []) } := by
  have gen : ∀ (l : List SelectionNode) (f s : List SelectionNode),
      l.foldl mergeEntryUpd { field := f, selections := s } =
        { field := f ++ l,
          selections := s ++ l.flatMap (fun n => (nodeSelectionSet n).getD []) } := by
    intro l
    induction l with
    | nil => intro f s; simp
    | cons m ms ih =>
        intro f s
        simp only [List.foldl_cons, mergeEntryUpd, ih, List.flatMap_cons]
        simp
  simp only [applyGroup, mergeEntryUpd, mergeEntryInit]
  rw [gen]
  simp

/-- Membership in the groups computed from `xs`: every entry's collected
selections are strictly smaller than the input (termination measure for the
recursive merge). -/
theorem mergeAcc_selections_size_lt (xs : List SelectionNode)
    (k : String) (e : MergeEntry)
    (h : (k, e) ∈ (xs.foldl mergeStep ⟨[], []⟩).groups) :
    listSize e.selections < listSize xs := by
  rw [mergeAcc_groups_eq] at h
  have hgf : (xs.filter (fun n => (nodeSelectionSet n).isSome)).foldl
      (groupStep branchKey mergeEntryInit mergeEntryUpd) ([] : List (String × MergeEntry)) =
      groupFold branchKey mergeEntryInit mergeEntryUpd
        (xs.filter (fun n => (nodeSelectionSet n).isSome)) := rfl
  rw [hgf, groupFold_eq] at h
  obtain ⟨k', hk', hpair⟩ := List.mem_map.mp h
  set bs := xs.filter (fun n => (nodeSelectionSet n).isSome) with hbs
  simp only [Prod.mk.injEq] at hpair
  obtain ⟨hk1, he⟩ := hpair
  rcases hfe : bs.filter (fun a => branchKey a = k') with _ | ⟨a, as⟩
  · exfalso
    rw [mem_distinctKeys] at hk'
    obtain ⟨hmem, _⟩ := hk'
    obtain ⟨a, ha, hae⟩ := List.mem_map.mp hmem
    have := List.filter_eq_nil_iff.mp hfe a ha
    simp [hae] at this
  · have he' : e = applyGroup mergeEntryInit mergeEntryUpd (a :: as) := by
      rw [← he, hfe]
    rw [applyGroup_mergeEntry] at he'
    have hsz : listSize e.selections <
        listSize ((a :: as) : List SelectionNode) := by
      rw [he']
      exact listSize_flatMap_lt _ (by simp)
    have hsub1 : ((a :: as) : List SelectionNode).Sublist bs := by
      rw [← hfe]; exact List.filter_sublist _
    have hsub2 : bs.Sublist xs := by
      rw [hbs]; exact List.filter_sublist _
    have := listSize_sublist_le _ _ (hsub1.trans hsub2)
    omega

/-- `mergeSelectionsSetsInternal`: one pass over the input collecting leaf
items (deduplicated by `name.value`) and grouping branching items, then the
leaves followed by one node per group, the group's first node with its
selections replaced by the recursive merge of all members' child selections.
(`result.flat()` on a flat array is the identity and is dropped.) -/
def mergeSelectionsSetsInternal (fieldNodes : List SelectionNode) : List SelectionNode :=
  (fieldNodes.foldl mergeStep ⟨[], []⟩).scalars ++
    ((fieldNodes.foldl mergeStep ⟨[], []⟩).groups.attach.map
      (fun p => setSelections p.1.2.field.headI
        (mergeSelectionsSetsInternal p.1.2.selections)))
termination_by listSize fieldNodes
decreasing_by
  exact mergeAcc_selections_size_lt _ p.1.1 p.1.2 p.2

/-- `mergeSelectionSets`: collect the selections of the nodes that have a
selection set and merge them. -/
def mergeSelectionSets (fieldNodes : List FieldNode) : SelectionSetNode :=
  mergeSelectionsSetsInternal
    (fieldNodes.foldl
      (fun sels fn => match fn.selectionSet with
        | none => sels
        | some ss => sels ++ ss) [])

/-- `combineFields`: the first field of a response-name group is the base; a
composite return type gets the recursive merge of all members' selections.
(On `[]` the TS code would fault reading `fields[0]`; groups are nonempty.) -/
def combineFields (fields : FieldSet) : Field :=
  match fields with
  | [] => default
  | f :: _ =>
      let returnType := getNamedType f.fieldDef.type
      if isCompositeType returnType then
        { scope := f.scope,
          fieldNode := { f.fieldNode with
            selectionSet := some (mergeSelectionSets (fields.map (fun field => field.fieldNode))) },
          fieldDef := f.fieldDef }
      else
        { scope := f.scope, fieldNode := f.fieldNode, fieldDef := f.fieldDef }

/-- `wrapInInlineFragmentIfNeeded`: `typeCondition === parentType` compares by
reference and is false whenever `parentType` is `undefined` (`none`). -/
def wrapInInlineFragmentIfNeeded (selections : List SelectionNode)
    (typeCondition : GraphQLCompositeType)
    (parentType : Option GraphQLCompositeType) : List SelectionNode :=
  if some typeCondition = parentType then selections
  else [SelectionNode.inlineFragment typeCondition.name selections]

/-- `selectionSetFromFieldSet` (the spec's `buildSelectionSet`). -/
def selectionSetFromFieldSet (fields : FieldSet)
    (parentType : Option GraphQLCompositeType) : SelectionSetNode :=
  (groupByParentType fields).flatMap
    (fun tg =>
      wrapInInlineFragmentIfNeeded
        ((groupByResponseName tg.2).map
          (fun rg => (combineFields rg.2).fieldNode.toNode))
        tg.1 parentType)

/-! ### Characterizations of the merge -/

/-- Leaf (scalar-bucket) dedup as the code performs it: keep the first node
for each `name.value`. -/
def dedupLeaves (l : List SelectionNode) : List SelectionNode :=
  l.foldl
    (fun acc n => if acc.any (fun s => nodeName s = nodeName n) then acc else acc ++ [n]) []

def branchNodes (xs : List SelectionNode) : List SelectionNode :=
  xs.filter (fun n => (nodeSelectionSet n).isSome)

def leafNodes (xs : List SelectionNode) : List SelectionNode :=
  xs.filter (fun n => ¬ (nodeSelectionSet n).isSome)

/-- The distinct branch keys of the input's branching items, in
first-appearance order. -/
def branchGroupKeys (xs : List SelectionNode) : List String :=
  distinctKeys [] ((branchNodes xs).map branchKey)

def groupMembers (xs : List SelectionNode) (k : String) : List SelectionNode :=
  (branchNodes xs).filter (fun n => branchKey n = k)

def groupChildren (xs : List SelectionNode) (k : String) : List SelectionNode :=
  (groupMembers xs k).flatMap (fun n => (nodeSelectionSet n).getD [])

theorem mergeAcc_groups_char (xs : List SelectionNode) :
    (xs.foldl mergeStep ⟨[], []⟩).groups =
      (branchGroupKeys xs).map
        (fun k => (k, applyGroup mergeEntryInit mergeEntryUpd (groupMembers xs k))) := by
  rw [mergeAcc_groups_eq]
  exact groupFold_eq _ _ _ _

/-- The two-phase shape of `mergeSelectionsSetsInternal`: the deduplicated
leaf items of the input (in first-appearance order), followed by one node per
distinct branch key (in first-appearance order) — that group's first node with
its selection set replaced by the recursive merge of all members' children. -/
theorem mergeInternal_eq (xs : List SelectionNode) :
    mergeSelectionsSetsInternal xs =
      dedupLeaves (leafNodes xs) ++
        (branchGroupKeys xs).map
          (fun k => setSelections (groupMembers xs k).headI
            (mergeSelectionsSetsInternal (groupChildren xs k))) := by
  rw [mergeSelectionsSetsInternal]
  congr 1
  · rw [mergeAcc_scalars_eq]
    rfl
  · rw [List.attach_map_val
      ((xs.foldl mergeStep ⟨[], []⟩).groups)
      (fun q => setSelections q.2.field.headI (mergeSelectionsSetsInternal q.2.selections))]
    rw [mergeAcc_groups_char, List.map_map]
    apply List.map_congr_left
    intro k hk
    rcases hme : groupMembers xs k with _ | ⟨a, as⟩
    · exfalso
      rw [branchGroupKeys, mem_distinctKeys] at hk
      obtain ⟨hmem, _⟩ := hk
      obtain ⟨n, hn, hne⟩ := List.mem_map.mp hmem
      have := List.filter_eq_nil_iff.mp hme n hn
      simp [hne] at this
    · simp only [Function.comp, applyGroup_mergeEntry, groupChildren, hme]
      simp [List.headI]

theorem collectSelections_eq (l : List FieldNode) (init : List SelectionNode) :
    l.foldl
      (fun sels fn => match fn.selectionSet with
        | none => sels
        | some ss => sels ++ ss) init =
      init ++ l.flatMap (fun fn => fn.selectionSet.getD []) := by
  induction l generalizing init with
  | nil => simp
  | cons fn rest ih =>
      rcases h : fn.selectionSet with _ | ss
      · simp only [List.foldl_cons, h, ih, List.flatMap_cons]
        simp
      · simp only [List.foldl_cons, h, ih, List.flatMap_cons]
        simp

theorem mergeSelectionSets_eq (l : List FieldNode) :
    mergeSelectionSets l =
      mergeSelectionsSetsInternal (l.flatMap (fun fn => fn.selectionSet.getD [])) := by
  rw [mergeSelectionSets, collectSelections_eq]
  simp

/-- The plain groupBys of `FieldSet.ts` produce one group per distinct key in
first-appearance order, each group the subsequence of fields with that key. -/
theorem groupByParentType_eq (fs : FieldSet) :
    groupByParentType fs =
      (distinctKeys [] (fs.map (fun f => f.scope.parentType))).map
        (fun t => (t, fs.filter (fun f => f.scope.parentType = t))) :=
  groupFold_list_eq _ _

theorem groupByResponseName_eq (fs : FieldSet) :
    groupByResponseName fs =
      (distinctKeys [] (fs.map (fun f => getResponseName f.fieldNode))).map
        (fun r => (r, fs.filter (fun f => getResponseName f.fieldNode = r))) :=
  groupFold_list_eq _ _

/-! ### Merge idempotence under self-concatenation -/

def leafAdd (acc : List SelectionNode) (n : SelectionNode) : List SelectionNode :=
  if acc.any (fun s => nodeName s = nodeName n) then acc else acc ++ [n]

theorem dedupLeaves_eq_foldl (l : List SelectionNode) :
    dedupLeaves l = l.foldl leafAdd [] := rfl

theorem leafAdd_mono (l : List SelectionNode) (acc : List SelectionNode)
    (s : SelectionNode) (hs : s ∈ acc) : s ∈ l.foldl leafAdd acc := by
  induction l generalizing acc with
  | nil => exact hs
  | cons n ns ih =>
      simp only [List.foldl_cons, leafAdd]
      split
      · exact ih acc hs
      · exact ih _ (List.mem_append_left _ hs)

theorem leafFold_exists (l : List SelectionNode) (acc : List SelectionNode)
    (n : SelectionNode) (hn : n ∈ l) :
    ∃ s ∈ l.foldl leafAdd acc, nodeName s = nodeName n := by
  induction l generalizing acc with
  | nil => simp at hn
  | cons m ms ih =>
      rcases List.mem_cons.mp hn with rfl | hn'
      · simp only [List.foldl_cons, leafAdd]
        by_cases hc : acc.any (fun s => nodeName s = nodeName n)
        · rw [if_pos hc]
          obtain ⟨s, hs, hname⟩ := List.any_eq_true.mp hc
          exact ⟨s, leafAdd_mono _ _ _ hs, of_decide_eq_true hname⟩
        · rw [if_neg hc]
          exact ⟨n, leafAdd_mono _ _ _ (List.mem_append_right _ (List.mem_singleton.mpr rfl)), rfl⟩
      · simp only [List.foldl_cons]
        exact ih _ hn'

theorem leafFold_covered (l : List SelectionNode) (acc : List SelectionNode)
    (h : ∀ n ∈ l, ∃ s ∈ acc, nodeName s = nodeName n) :
    l.foldl leafAdd acc = acc := by
  induction l with
  | nil => rfl
  | cons n ns ih =>
      have hc : acc.any (fun s => nodeName s = nodeName n) = true := by
        obtain ⟨s, hs, hname⟩ := h n (List.mem_cons_self _ _)
        exact List.any_eq_true.mpr ⟨s, hs, decide_eq_true hname⟩
      simp only [List.foldl_cons, leafAdd, if_pos hc]
      exact ih fun m hm => h m (List.mem_cons_of_mem _ hm)

theorem dedupLeaves_self_append (l : List SelectionNode) :
    dedupLeaves (l ++ l) = dedupLeaves l := by
  rw [dedupLeaves_eq_foldl, dedupLeaves_eq_foldl, List.foldl_append]
  exact leafFold_covered _ _ fun n hn => leafFold_exists l [] n hn

theorem distinctKeys_self_append (ks : List κ) :
    distinctKeys [] (ks ++ ks) = distinctKeys [] ks := by
  rw [distinctKeys_append]
  rw [distinctKeys_of_all_mem ks ([] ++ ks) (fun k hk => by simpa using hk)]
  simp

theorem nodeSize_pos (n : SelectionNode) : 0 < nodeSize n := by
  cases n with
  | field al nm args ss => cases ss <;> simp [nodeSize]
  | inlineFragment tc ss => simp [nodeSize]
  | fragmentSpread nm => simp [nodeSize]

theorem listSize_eq_zero (xs : List SelectionNode) (h : listSize xs = 0) : xs = [] := by
  cases xs with
  | nil => rfl
  | cons n ns =>
      exfalso
      have := nodeSize_pos n
      simp only [listSize] at h
      omega

theorem groupMembers_ne_nil (xs : List SelectionNode) (k : String)
    (hk : k ∈ branchGroupKeys xs) : groupMembers xs k ≠ [] := by
  intro hme
  rw [branchGroupKeys, mem_distinctKeys] at hk
  obtain ⟨hmem, _⟩ := hk
  obtain ⟨n, hn, hne⟩ := List.mem_map.mp hmem
  have := List.filter_eq_nil_iff.mp hme n hn
  simp [hne] at this

theorem groupChildren_size_lt (xs : List SelectionNode) (k : String)
    (hk : k ∈ branchGroupKeys xs) : listSize (groupChildren xs k) < listSize xs := by
  have hne := groupMembers_ne_nil xs k hk
  have h1 : listSize (groupChildren xs k) < listSize (groupMembers xs k) :=
    listSize_flatMap_lt _ hne
  have h2 : (groupMembers xs k).Sublist xs :=
    (List.filter_sublist _).trans (List.filter_sublist _)
  have := listSize_sublist_le _ _ h2
  omega

theorem headI_self_append (l : List SelectionNode) : (l ++ l).headI = l.headI := by
  cases l <;> simp

theorem mergeInternal_self_append_aux (N : Nat) :
    ∀ xs : List SelectionNode, listSize xs ≤ N →
      mergeSelectionsSetsInternal (xs ++ xs) = mergeSelectionsSetsInternal xs := by
  induction N with
  | zero =>
      intro xs h
      have hnil : xs = [] := listSize_eq_zero xs (Nat.le_zero.mp h)
      subst hnil
      rfl
  | succ N ih =>
      intro xs h
      rw [mergeInternal_eq (xs ++ xs), mergeInternal_eq xs]
      have hleaf : leafNodes (xs ++ xs) = leafNodes xs ++ leafNodes xs :=
        List.filter_append _ _
      have hbr : branchNodes (xs ++ xs) = branchNodes xs ++ branchNodes xs :=
        List.filter_append _ _
      have hkeys : branchGroupKeys (xs ++ xs) = branchGroupKeys xs := by
        rw [branchGroupKeys, hbr, List.map_append, distinctKeys_self_append]
        rfl
      congr 1
      · rw [hleaf, dedupLeaves_self_append]
      · rw [hkeys]
        apply List.map_congr_left
        intro k hk
        have hmem : groupMembers (xs ++ xs) k = groupMembers xs k ++ groupMembers xs k := by
          rw [groupMembers, hbr, List.filter_append]
          rfl
        have hch : groupChildren (xs ++ xs) k =
            groupChildren xs k ++ groupChildren xs k := by
          rw [groupChildren, hmem, List.flatMap_append]
          rfl
        rw [hch, hmem, headI_self_append]
        have hsz : listSize (groupChildren xs k) < listSize xs :=
          groupChildren_size_lt xs k hk
        rw [ih (groupChildren xs k) (by omega)]

theorem mergeInternal_self_append (xs : List SelectionNode) :
    mergeSelectionsSetsInternal (xs ++ xs) = mergeSelectionsSetsInternal xs :=
  mergeInternal_self_append_aux (listSize xs) xs (Nat.le_refl _)

theorem combineFields_self_append (l : FieldSet) :
    combineFields (l ++ l) = combineFields l := by
  cases l with
  | nil => rfl
  | cons f hs =>
      have hcons : (f :: hs) ++ (f :: hs) = f :: (hs ++ f :: hs) := by simp
      rw [hcons]
      simp only [combineFields]
      split
      · have hmerge : mergeSelectionSets ((f :: (hs ++ f :: hs)).map (fun field => field.fieldNode)) =
            mergeSelectionSets ((f :: hs).map (fun field => field.fieldNode)) := by
          rw [mergeSelectionSets_eq, mergeSelectionSets_eq]
          have : (f :: (hs ++ f :: hs)).map (fun field => field.fieldNode) =
              ((f :: hs).map (fun field => field.fieldNode)) ++
                ((f :: hs).map (fun field => field.fieldNode)) := by
            simp
          rw [this, List.flatMap_append, mergeInternal_self_append]
        rw [hmerge]
      · rfl

theorem responseGroups_map_self_append (g : FieldSet) :
    (groupByResponseName (g ++ g)).map
        (fun rg => (combineFields rg.2).fieldNode.toNode) =
      (groupByResponseName g).map
        (fun rg => (combineFields rg.2).fieldNode.toNode) := by
  rw [groupByResponseName_eq, groupByResponseName_eq, List.map_append,
    distinctKeys_self_append, List.map_map, List.map_map]
  apply List.map_congr_left
  intro r hr
  simp only [Function.comp]
  rw [List.filter_append]
  rw [combineFields_self_append]

theorem flatMap_map_eq {α β γ : Type} (l : List α) (g : α → β) (F : β → List γ) :
    (l.map g).flatMap F = l.flatMap (fun x => F (g x)) := by
  induction l with
  | nil => rfl
  | cons a as ih => simp [ih]

theorem flatMap_congr_left {α β : Type} (l : List α) (f g : α → List β)
    (h : ∀ a ∈ l, f a = g a) : l.flatMap f = l.flatMap g := by
  induction l with
  | nil => rfl
  | cons a as ih =>
      simp only [List.flatMap_cons]
      rw [h a (List.mem_cons_self _ _), ih fun x hx => h x (List.mem_cons_of_mem _ hx)]

/-- Merge idempotence under self-concatenation, at the top level. -/
theorem selectionSetFromFieldSet_self_append (fs : FieldSet)
    (p : Option GraphQLCompositeType) :
    selectionSetFromFieldSet (fs ++ fs) p = selectionSetFromFieldSet fs p := by
  rw [selectionSetFromFieldSet, selectionSetFromFieldSet,
    groupByParentType_eq, groupByParentType_eq, List.map_append,
    distinctKeys_self_append, flatMap_map_eq, flatMap_map_eq]
  apply flatMap_congr_left
  intro t _
  have hfil : (fs ++ fs).filter (fun f => f.scope.parentType = t) =
      fs.filter (fun f => f.scope.parentType = t) ++
        fs.filter (fun f => f.scope.parentType = t) :=
    List.filter_append _ _
  simp only [hfil]
  rw [responseGroups_map_self_append]

/-! ### Store-passing model of the merge's clone-and-assign step

The result phase of `mergeSelectionsSetsInternal` executes
`const clone = {...field}; clone.selectionSet?.selections = merged`.
The spread is a shallow copy, so `clone.selectionSet` is the same runtime
object as the input node's `selectionSet`; the assignment therefore rewrites
the contents of the input node's selection set in place.  To observe that
aliasing we give the same loop over nodes whose selection sets are store
addresses; fuel bounds the recursion, and the fuel-out branch is never hit on
the concrete runs below. -/

/-- A selection node whose selection set (if any) is an address in a store. -/
inductive HNode where
  | field (al : Option String) (name : String) (ss : Option Nat)
  | inlineFragment (typeCondition : String) (ss : Nat)
  | fragmentSpread (name : String)
deriving DecidableEq, Repr, Inhabited

/-- The mutable store: address of a selection-set object to its `selections`. -/
abbrev HStore := List (Nat × List HNode)

def hAddr : HNode → Option Nat
  | .field _ _ ss => ss
  | .inlineFragment _ ss => some ss
  | .fragmentSpread _ => none

def hName : HNode → String
  | .field _ n _ => n
  | .inlineFragment tc _ => tc
  | .fragmentSpread n => n

def hRead (σ : HStore) (a : Nat) : List HNode :=
  (getAssoc σ a).getD []

structure HEntry where
  field : List HNode
  selections : List HNode
deriving DecidableEq, Repr, Inhabited

structure HAcc where
  scalars : List HNode
  groups : List (String × HEntry)
deriving Inhabited

def hEntryInit (m : HNode) : HEntry :=
  { field := [m], selections := [] }

def hEntryUpd (σ : HStore) (e : HEntry) (m : HNode) : HEntry :=
  { field := e.field ++ [m],
    selections := e.selections ++ hRead σ ((hAddr m).getD 0) }

/-- The collection loop of `mergeSelectionsSetsInternal`, reading each
branching node's current selections out of the store (the reads all happen
before any of the result phase's writes). -/
def hMergeStep (σ : HStore) (st : HAcc) (n : HNode) : HAcc :=
  match hAddr n with
  | none =>
      if st.scalars.any (fun s => hName s = hName n) then st
      else { st with scalars := st.scalars ++ [n] }
  | some _ =>
      { st with groups := groupStep hName hEntryInit (hEntryUpd σ) st.groups n }

/-- The result phase: for each group, recursively merge the collected
children, then assign the merged list through the shallow clone — i.e. write
it to the first node's selection-set address, mutating the store.  The
emitted node is the clone, which carries the same address. -/
def hMergeInternal : Nat → HStore → List HNode → HStore × List HNode
  | 0, σ, _ => (σ, [])
  | fuel + 1, σ, xs =>
      let acc := xs.foldl (hMergeStep σ) ⟨[], []⟩
      let step := acc.groups.foldl
        (fun (r : HStore × List HNode) (ke : String × HEntry) =>
          let first := ke.2.field.headI
          let inner := hMergeInternal fuel r.1 ke.2.selections
          match hAddr first with
          | some a => (setAssoc inner.1 a inner.2, r.2 ++ [first])
          | none => (inner.1, r.2 ++ [first]))
        (σ, [])
      (step.1, acc.scalars ++ step.2)

/-! ### Schema Normalizer

The implementations (`defaultRootOperationTypes` and
`stripExternalFieldsFromTypeDefs` in
packages/apollo-federation/src/composition/utils.ts) are not among the
provided sources — only their tests are — so the definitions below are
modelled from the spec (§4.1) and checked against the test fixtures. -/

inductive OperationType where
  | query
  | mutation
  | subscription
deriving DecidableEq, Repr, Inhabited

def defaultRootName : OperationType → String
  | .query => "Query"
  | .mutation => "Mutation"
  | .subscription => "Subscription"

def defaultRootNames : List String :=
  ["Query", "Mutation", "Subscription"]

/-- A field definition: name, the base name of its declared return type, and
its directive names (e.g. "external", "key"). -/
structure FieldDefinition where
  name : String
  returnTypeName : String
  directives : List String
deriving DecidableEq, Repr, Inhabited

structure ObjectTypeDef where
  isExtension : Bool
  name : String
  directives : List String
  fields : List FieldDefinition
deriving DecidableEq, Repr, Inhabited

inductive TypeSystemDefinition where
  | schemaDef (operationTypes : List (OperationType × String))
  | objectType (d : ObjectTypeDef)
deriving DecidableEq, Repr, Inhabited

abbrev DocumentNode := List TypeSystemDefinition

def isSchemaDef : TypeSystemDefinition → Bool
  | .schemaDef _ => true
  | .objectType _ => false

/-- The (first) schema declaration's root-operation bindings, if any. -/
def schemaDefOf : DocumentNode → Option (List (OperationType × String))
  | [] => none
  | .schemaDef ops :: _ => some ops
  | .objectType _ :: rest => schemaDefOf rest

/-- Look up which operation a type name is bound to by the declaration. -/
def findBinding (bindings : List (OperationType × String)) (n : String) :
    Option OperationType :=
  (bindings.find? (fun b => b.2 = n)).map Prod.fst

/-- The names of top-level definitions that use a default root type name
without being designated by the schema declaration; these are dropped. -/
def droppedNamesOf (doc : DocumentNode) : List String :=
  match schemaDefOf doc with
  | none => []
  | some bindings =>
      doc.filterMap (fun d =>
        match d with
        | .schemaDef _ => none
        | .objectType o =>
            if o.name ∈ defaultRootNames ∧ o.name ∉ bindings.map Prod.snd
            then some o.name else none)

/-- One kept definition's rewrite: a bound root type becomes an extension of
its default root name; then fields returning a dropped name are filtered. -/
def rewriteDef (bindings : List (OperationType × String)) (dropped : List String)
    (o : ObjectTypeDef) : ObjectTypeDef :=
  let o' :=
    match findBinding bindings o.name with
    | some op => { o with isExtension := true, name := defaultRootName op }
    | none => o
  { o' with fields := o'.fields.filter (fun f => f.returnTypeName ∉ dropped) }

/-- Modelled from the spec: `defaultRootOperationTypes` (the implementation in
packages/apollo-federation/src/composition/utils.ts is not under the provided
sources).  With a schema declaration: bound root types become extensions of
the default root names with their fields carried over; other definitions named
like a default root type are dropped; fields whose declared return type names
a dropped type are dropped (literal one-hop check); the declaration itself is
removed.  Without a declaration the document passes through unchanged. -/
def defaultRootOperationTypes (doc : DocumentNode) : DocumentNode :=
  match schemaDefOf doc with
  | none => doc
  | some bindings =>
      doc.filterMap (fun d =>
        match d with
        | .schemaDef _ => none
        | .objectType o =>
            if o.name ∈ defaultRootNames ∧ o.name ∉ bindings.map Prod.snd then none
            else some (.objectType (rewriteDef bindings (droppedNamesOf doc) o)))

/-- Record of one stripped external field. -/
structure StrippedFieldRecord where
  field : FieldDefinition
  parentTypeName : String
  serviceName : String
deriving DecidableEq, Repr, Inhabited

def isExternalField (f : FieldDefinition) : Bool :=
  "external" ∈ f.directives

/-- Modelled from the spec: `stripExternalFieldsFromTypeDefs` (implementation
not under the provided sources).  Every field annotated `@external` is removed
from its containing type/extension — the node itself is kept, even field-less
— and one record per removed field is collected in document order. -/
def stripExternalFieldsFromTypeDefs (doc : DocumentNode) (serviceName : String) :
    DocumentNode × List StrippedFieldRecord :=
  doc.foldl
    (fun acc d =>
      match d with
      | .schemaDef ops => (acc.1 ++ [.schemaDef ops], acc.2)
      | .objectType o =>
          (acc.1 ++ [.objectType { o with fields := o.fields.filter (fun f => ¬ isExternalField f) }],
           acc.2 ++ (o.fields.filter isExternalField).map
             (fun f => { field := f, parentTypeName := o.name, serviceName := serviceName })))
    ([], [])

/-- Number of external-flagged fields in a document. -/
def countExternalFields (doc : DocumentNode) : Nat :=
  (doc.map (fun d =>
    match d with
    | .schemaDef _ => 0
    | .objectType o => (o.fields.filter isExternalField).length)).sum

/-! ### Spec-side formulation of the leaf dedup -/

/-- First occurrence per node name, written as the spec phrases it: keep the
head, drop later nodes with the same name, recurse. -/
def dedupByNameSpec : List SelectionNode → List SelectionNode
  | [] => []
  | n :: ns =>
      n :: dedupByNameSpec (ns.filter (fun m => nodeName m ≠ nodeName n))
termination_by l => l.length
decreasing_by
  have := List.length_filter_le (fun m => decide (nodeName m ≠ nodeName n)) ns
  simp only [List.length_cons]
  omega

theorem leafFold_eq_dedupSpec (l : List SelectionNode) (acc : List SelectionNode) :
    l.foldl leafAdd acc =
      acc ++ dedupByNameSpec
        (l.filter (fun n => ¬ acc.any (fun s => nodeName s = nodeName n))) := by
  induction l generalizing acc with
  | nil => simp [dedupByNameSpec]
  | cons n ns ih =>
      simp only [List.foldl_cons]
      by_cases hc : acc.any (fun s => nodeName s = nodeName n)
      · have hfil : (n :: ns).filter (fun m => ¬ acc.any (fun s => nodeName s = nodeName m)) =
            ns.filter (fun m => ¬ acc.any (fun s => nodeName s = nodeName m)) := by
          simp only [List.filter_cons]
          have : (decide (¬ (acc.any fun s => decide (nodeName s = nodeName n)) = true)) = false := by
            simp [hc]
          rw [this]
          simp
        rw [leafAdd, if_pos hc, ih, hfil]
      · have hfil : (n :: ns).filter (fun m => ¬ acc.any (fun s => nodeName s = nodeName m)) =
            n :: ns.filter (fun m => ¬ acc.any (fun s => nodeName s = nodeName m)) := by
          simp only [List.filter_cons]
          have : (decide (¬ (acc.any fun s => decide (nodeName s = nodeName n)) = true)) = true := by
            simp [hc]
          rw [this]
          simp
        rw [leafAdd, if_neg hc, ih, hfil, dedupByNameSpec]
        have hfil : ns.filter (fun m => ¬ (acc ++ [n]).any (fun s => nodeName s = nodeName m)) =
            (ns.filter (fun m => ¬ acc.any (fun s => nodeName s = nodeName m))).filter
              (fun m => nodeName m ≠ nodeName n) := by
          rw [List.filter_filter]
          apply List.filter_congr
          intro m _
          have hsplit : (¬ ((acc ++ [n]).any fun s => decide (nodeName s = nodeName m)) = true) ↔
              ((¬ (acc.any fun s => decide (nodeName s = nodeName m)) = true) ∧
                ¬ nodeName n = nodeName m) := by
            simp only [List.any_append, List.any_cons, List.any_nil, Bool.or_false,
              Bool.or_eq_true, decide_eq_true_eq, not_or]
          rw [decide_eq_decide.mpr hsplit, Bool.decide_and, Bool.and_comm]
          congr 1
          exact decide_eq_decide.mpr (not_congr eq_comm)
        rw [hfil]
        simp

theorem dedupLeaves_eq_dedupByNameSpec (l : List SelectionNode) :
    dedupLeaves l = dedupByNameSpec l := by
  rw [dedupLeaves_eq_foldl, leafFold_eq_dedupSpec]
  simp

/-! ### Concrete fixtures -/

def leafX : SelectionNode := .field none "x" [] none

def leafA : SelectionNode := .field none "a" [] none

def leafC : SelectionNode := .field none "c" [] none

def branchB : SelectionNode := .field none "b" [] (some [leafX])

def aliasedFooA : FieldNode := ⟨some "a", "foo", [], none⟩

def aliasedFooB : FieldNode := ⟨some "b", "foo", [], none⟩

def typeT0 : GraphQLCompositeType := ⟨0, "T"⟩

def typeT1 : GraphQLCompositeType := ⟨1, "T"⟩

def typeT2 : GraphQLCompositeType := ⟨2, "T"⟩

def scalarString : GraphQLOutputType := .named ⟨"String", false⟩

def fldX : Field := ⟨.mk typeT0 [] none, ⟨none, "x", [], none⟩, ⟨"x", scalarString⟩⟩

def fldY : Field := ⟨.mk typeT1 [] none, ⟨none, "y", [], none⟩, ⟨"y", scalarString⟩⟩

def detailsNode : FieldNode := ⟨none, "details", [], some [leafX]⟩

def fldDetails : Field :=
  ⟨.mk typeT0 [] none, detailsNode, ⟨"details", .named ⟨"Details", true⟩⟩⟩

def hLeafX : HNode := .field none "x" none

def hBranchB : HNode := .field none "b" (some 1)

def hStore0 : HStore := [(0, [hBranchB]), (1, [hLeafX, hLeafX])]

/-- Evaluation of the ordering example: a scalar, a branching field, a scalar. -/
theorem mergeExample_eval :
    mergeSelectionsSetsInternal [leafA, branchB, leafC] = [leafA, leafC, branchB] := by
  rw [mergeInternal_eq]
  have hkeys : branchGroupKeys [leafA, branchB, leafC] = ["b"] := rfl
  rw [hkeys]
  simp only [List.map_cons, List.map_nil]
  have hch : groupChildren [leafA, branchB, leafC] "b" = [leafX] := rfl
  rw [hch]
  have hxx : mergeSelectionsSetsInternal [leafX] = [leafX] := by
    rw [mergeInternal_eq]
    rfl
  rw [hxx]
  rfl

/-- The inner selections built for one declaring-type group. -/
def innerSelections (fs : FieldSet) : List SelectionNode :=
  (groupByResponseName fs).map (fun rg => (combineFields rg.2).fieldNode.toNode)

theorem distinctKeys_all_eq (l : List κ) (k : κ) (hne : l ≠ [])
    (h : ∀ x ∈ l, x = k) : distinctKeys [] l = [k] := by
  cases l with
  | nil => exact absurd rfl hne
  | cons k₀ ks =>
      have hk0 : k₀ = k := h k₀ (List.mem_cons_self _ _)
      subst hk0
      have hstep : distinctKeys ([] : List κ) (k₀ :: ks) = k₀ :: distinctKeys [k₀] ks := by
        simp [distinctKeys]
      rw [hstep, distinctKeys_of_all_mem ks [k₀]
        (fun x hx => by rw [h x (List.mem_cons_of_mem _ hx)]; exact List.mem_singleton.mpr rfl)]

/-! ### Claims -/

/-- C1: for every FieldSet, the selection tree of `selectionSetFromFieldSet`
has, within each declaring-type group, exactly one field per distinct response
name (first-appearance order, keys duplicate-free), that field being the
combination of all fields sharing the response name; when the return type is
composite the combined field's nested selection is the merge of all members'
nested selections. -/
theorem C1_response_name_merge (fs : FieldSet) (p : Option GraphQLCompositeType) :
    (selectionSetFromFieldSet fs p =
      (distinctKeys [] (fs.map (fun f => f.scope.parentType))).flatMap
        (fun tc =>
          wrapInInlineFragmentIfNeeded
            ((distinctKeys [] ((fs.filter (fun f => f.scope.parentType = tc)).map
                (fun f => getResponseName f.fieldNode))).map
              (fun r => (combineFields
                  ((fs.filter (fun f => f.scope.parentType = tc)).filter
                    (fun f => getResponseName f.fieldNode = r))).fieldNode.toNode))
            tc p)) ∧
    (∀ g : FieldSet,
      (distinctKeys [] (g.map (fun f => getResponseName f.fieldNode))).Nodup) ∧
    (∀ (f : Field) (gs : FieldSet),
      isCompositeType (getNamedType f.fieldDef.type) = true →
        (combineFields (f :: gs)).fieldNode.selectionSet =
          some (mergeSelectionSets ((f :: gs).map (fun field => field.fieldNode)))) := by
  refine ⟨?_, fun g => distinctKeys_nodup _ _, ?_⟩
  · rw [selectionSetFromFieldSet, groupByParentType_eq, flatMap_map_eq]
    apply flatMap_congr_left
    intro tc _
    rw [groupByResponseName_eq, List.map_map]
    rfl
  · intro f gs h
    simp [combineFields, h]

theorem C1_witness :
    isCompositeType (getNamedType fldDetails.fieldDef.type) = true ∧
    (combineFields [fldDetails]).fieldNode.selectionSet =
      some (mergeSelectionSets [fldDetails.fieldNode]) := by
  refine ⟨rfl, ?_⟩
  exact (C1_response_name_merge [fldDetails] none).2.2 fldDetails [] rfl

/-- C2: the output of the nested-selection merge is two-phase — deduplicated
leaf items in first-appearance order, then one node per branching group in
first-appearance order — depending only on the leaf sublist and the branching
sublist, regardless of interleaving; on `[a(scalar), b(object), c(scalar)]`
the order is `[a, c, b]`. -/
theorem C2_two_phase_ordering :
    (∀ xs : List SelectionNode,
      mergeSelectionsSetsInternal xs =
        dedupLeaves (leafNodes xs) ++
          (branchGroupKeys xs).map
            (fun k => setSelections (groupMembers xs k).headI
              (mergeSelectionsSetsInternal (groupChildren xs k)))) ∧
    mergeSelectionsSetsInternal [leafA, branchB, leafC] = [leafA, leafC, branchB] :=
  ⟨mergeInternal_eq, mergeExample_eval⟩

/-- C3 counterexample: with no parent scope argument, the single
declaring-type group is wrapped in an inline fragment — not emitted directly
as the claim states. -/
theorem C3_counterexample :
    selectionSetFromFieldSet [fldX] none =
      [SelectionNode.inlineFragment "T" [fldX.fieldNode.toNode]] ∧
    selectionSetFromFieldSet [fldX] none ≠ [fldX.fieldNode.toNode] := by
  constructor
  · rfl
  · rw [show selectionSetFromFieldSet [fldX] none =
        [SelectionNode.inlineFragment "T" [fldX.fieldNode.toNode]] from rfl]
    simp [fldX, FieldNode.toNode]

/-- C3 amended: a declaring-type group is emitted directly only when a parent
scope is given and it is the (identical) declaring type; otherwise — including
when no parent scope argument is given — the group is wrapped in a single
inline fragment naming the declaring type. -/
theorem C3_amended_fragment_rule (fs : FieldSet) (tc : GraphQLCompositeType)
    (p : Option GraphQLCompositeType) (hne : fs ≠ [])
    (hall : ∀ f ∈ fs, f.scope.parentType = tc) :
    selectionSetFromFieldSet fs p =
      if p = some tc then innerSelections fs
      else [SelectionNode.inlineFragment tc.name (innerSelections fs)] := by
  rw [selectionSetFromFieldSet, groupByParentType_eq]
  have hmapall : ∀ x ∈ fs.map (fun f => f.scope.parentType), x = tc := by
    intro x hx
    obtain ⟨f, hf, rfl⟩ := List.mem_map.mp hx
    exact hall f hf
  have hmapne : fs.map (fun f => f.scope.parentType) ≠ [] := by
    intro hmap
    exact hne (List.map_eq_nil_iff.mp hmap)
  rw [distinctKeys_all_eq _ tc hmapne hmapall]
  have hfiltereq : fs.filter (fun f => f.scope.parentType = tc) = fs := by
    apply List.filter_eq_self.mpr
    intro f hf
    simp [hall f hf]
  simp only [List.map_cons, List.map_nil, List.flatMap_cons, List.flatMap_nil,
    hfiltereq, List.append_nil]
  rw [wrapInInlineFragmentIfNeeded]
  by_cases hp : p = some tc
  · rw [if_pos hp.symm, if_pos hp]
    rfl
  · rw [if_neg (fun hcontra => hp hcontra.symm), if_neg hp]
    rfl

theorem C3_amended_witness :
    ([fldX] : FieldSet) ≠ [] ∧
    selectionSetFromFieldSet [fldX] (some typeT0) = innerSelections [fldX] := by
  constructor
  · simp
  · have h := C3_amended_fragment_rule [fldX] typeT0 (some typeT0)
      (by simp)
      (by
        intro f hf
        rw [List.mem_singleton] at hf
        subst hf
        rfl)
    rw [h, if_pos rfl]

/-- C4 counterexample: two leaf fields with the same field name but different
aliases have different response names, yet the merge keeps only the first —
the dedup key is the node's `name`, not the response name. -/
theorem C4_counterexample :
    getResponseName aliasedFooA ≠ getResponseName aliasedFooB ∧
    mergeSelectionsSetsInternal [aliasedFooA.toNode, aliasedFooB.toNode] =
      [aliasedFooA.toNode] ∧
    mergeSelectionsSetsInternal [aliasedFooA.toNode, aliasedFooB.toNode] ≠
      [aliasedFooA.toNode, aliasedFooB.toNode] := by
  have heval : mergeSelectionsSetsInternal [aliasedFooA.toNode, aliasedFooB.toNode] =
      [aliasedFooA.toNode] := by
    rw [mergeInternal_eq]
    rfl
  refine ⟨by decide, heval, ?_⟩
  rw [heval]
  simp

/-- C4 amended: leaf items are deduplicated by the node's plain name — the
field's name (alias ignored) or the fragment spread's fragment name — keeping
the first occurrence per name. -/
theorem C4_amended_leaf_dedup_by_name (xs : List SelectionNode) :
    mergeSelectionsSetsInternal xs =
      dedupByNameSpec (leafNodes xs) ++
        (branchGroupKeys xs).map
          (fun k => setSelections (groupMembers xs k).headI
            (mergeSelectionsSetsInternal (groupChildren xs k))) := by
  rw [mergeInternal_eq, dedupLeaves_eq_dedupByNameSpec]

/-- C5: the claim says the merge never mutates its inputs, but the result
phase's `clone = {...field}` shares the original node's selection-set object
and `clone.selectionSet?.selections = merged` writes through it: in the
store-passing model, merging a node whose child carries duplicate leaves
rewrites the child's stored selections in place. -/
theorem C5_merge_mutates_input :
    hRead hStore0 1 = [hLeafX, hLeafX] ∧
    hRead (hMergeInternal 3 hStore0 [hBranchB]).1 1 = [hLeafX] ∧
    (hMergeInternal 3 hStore0 [hBranchB]).1 ≠ hStore0 := by decide

/-- C6: merging a FieldSet concatenated with itself yields the same selection
tree as merging it once. -/
theorem C6_merge_idempotent (fs : FieldSet) (p : Option GraphQLCompositeType) :
    selectionSetFromFieldSet (fs ++ fs) p = selectionSetFromFieldSet fs p :=
  selectionSetFromFieldSet_self_append fs p

/-- C10: grouping and the wrap decision use the type object's identity, not
its name: two same-named but distinct type objects produce two separate
fragments for the one name, and a parent type that is name-equal but not the
same object still triggers wrapping. -/
theorem C10_identity_grouping :
    typeT0.name = typeT1.name ∧ typeT0 ≠ typeT1 ∧ typeT2.name = typeT0.name ∧
    selectionSetFromFieldSet [fldX, fldY] (some typeT2) =
      [SelectionNode.inlineFragment "T" [fldX.fieldNode.toNode],
       SelectionNode.inlineFragment "T" [fldY.fieldNode.toNode]] :=
  ⟨rfl, by decide, rfl, rfl⟩

/-! ### Normalizer fixtures (from the tests of composition/utils) -/

def cDoc1 : DocumentNode := [
  .schemaDef [(.query, "RootQuery"), (.mutation, "RootMutation")],
  .objectType ⟨false, "RootQuery", [], [⟨"product", "Product", []⟩]⟩,
  .objectType ⟨false, "Product", [], [⟨"sku", "String", []⟩]⟩,
  .objectType ⟨false, "RootMutation", [], [⟨"updateProduct", "Product", []⟩]⟩]

def cDoc2 : DocumentNode := [
  .schemaDef [(.query, "RootQuery")],
  .objectType ⟨false, "RootQuery", [], [⟨"product", "Product", []⟩]⟩,
  .objectType ⟨false, "Product", [], [⟨"sku", "String", []⟩]⟩,
  .objectType ⟨false, "Query", [], [⟨"removeThisEntireType", "String", []⟩]⟩,
  .objectType ⟨false, "Mutation", [], [⟨"removeThisEntireType", "String", []⟩]⟩,
  .objectType ⟨false, "Subscription", [], [⟨"removeThisEntireType", "String", []⟩]⟩]

def cDoc3 : DocumentNode := [
  .schemaDef [(.query, "RootQuery"), (.mutation, "RootMutation")],
  .objectType ⟨false, "RootQuery", [], [⟨"product", "Product", []⟩]⟩,
  .objectType ⟨false, "Query", [], [⟨"removeThisEntireType", "String", []⟩]⟩,
  .objectType ⟨false, "RootMutation", [],
    [⟨"keepThisField", "String", []⟩, ⟨"removeThisField", "Query", []⟩]⟩]

def cStripDoc : DocumentNode := [
  .objectType ⟨false, "Query", [], [⟨"product", "Product", []⟩]⟩,
  .objectType ⟨true, "Product", ["key"], [⟨"sku", "String", ["external"]⟩]⟩,
  .objectType ⟨false, "Mutation", [], [⟨"updateProduct", "Product", []⟩]⟩]

theorem findBinding_some_mem (bs : List (OperationType × String)) (n : String)
    (op : OperationType) (h : findBinding bs n = some op) : n ∈ bs.map Prod.snd := by
  rw [findBinding] at h
  rcases hf : bs.find? (fun b => b.2 = n) with _ | b
  · rw [hf] at h
    simp at h
  · have hb := List.find?_some hf
    have hmem := List.mem_of_find?_eq_some hf
    simp only [decide_eq_true_eq] at hb
    exact hb ▸ List.mem_map.mpr ⟨b, hmem, rfl⟩

theorem mem_findBinding_isSome (bs : List (OperationType × String)) (n : String)
    (h : n ∈ bs.map Prod.snd) : (findBinding bs n).isSome := by
  obtain ⟨b, hb, hn⟩ := List.mem_map.mp h
  rw [findBinding]
  rcases hf : bs.find? (fun b => b.2 = n) with _ | b'
  · exfalso
    have := List.find?_eq_none.mp hf b hb
    simp [hn] at this
  · rw [hf]
    rfl

theorem rewriteDef_of_some (bs : List (OperationType × String)) (dropped : List String)
    (o : ObjectTypeDef) (op : OperationType) (h : findBinding bs o.name = some op) :
    rewriteDef bs dropped o =
      { isExtension := true, name := defaultRootName op, directives := o.directives,
        fields := o.fields.filter (fun f => f.returnTypeName ∉ dropped) } := by
  rw [rewriteDef]
  simp only [h]

theorem rewriteDef_of_none (bs : List (OperationType × String)) (dropped : List String)
    (o : ObjectTypeDef) (h : findBinding bs o.name = none) :
    rewriteDef bs dropped o =
      { o with fields := o.fields.filter (fun f => f.returnTypeName ∉ dropped) } := by
  rw [rewriteDef]
  simp only [h]

theorem rewriteDef_fields (bs : List (OperationType × String)) (dropped : List String)
    (o : ObjectTypeDef) :
    (rewriteDef bs dropped o).fields =
      o.fields.filter (fun f => f.returnTypeName ∉ dropped) := by
  rcases h : findBinding bs o.name with _ | op
  · rw [rewriteDef_of_none _ _ _ h]
  · rw [rewriteDef_of_some _ _ _ _ h]

/-- Output membership for the normalizer when a declaration is present. -/
theorem mem_defaultRootOperationTypes (doc : DocumentNode)
    (bs : List (OperationType × String)) (hs : schemaDefOf doc = some bs)
    (d : TypeSystemDefinition) :
    d ∈ defaultRootOperationTypes doc ↔
      ∃ o₀ : ObjectTypeDef, TypeSystemDefinition.objectType o₀ ∈ doc ∧
        ¬ (o₀.name ∈ defaultRootNames ∧ o₀.name ∉ bs.map Prod.snd) ∧
        d = .objectType (rewriteDef bs (droppedNamesOf doc) o₀) := by
  simp only [defaultRootOperationTypes, hs]
  rw [List.mem_filterMap]
  constructor
  · rintro ⟨d₀, hd₀, hg⟩
    cases d₀ with
    | schemaDef ops =>
        exact Option.noConfusion
          (show (none : Option TypeSystemDefinition) = some d from hg)
    | objectType o₀ =>
        have hg' : (if o₀.name ∈ defaultRootNames ∧ o₀.name ∉ bs.map Prod.snd
            then none
            else some (TypeSystemDefinition.objectType
              (rewriteDef bs (droppedNamesOf doc) o₀))) = some d := hg
        by_cases hdrop : o₀.name ∈ defaultRootNames ∧ o₀.name ∉ bs.map Prod.snd
        · rw [if_pos hdrop] at hg'
          exact Option.noConfusion hg'
        · rw [if_neg hdrop] at hg'
          exact ⟨o₀, hd₀, hdrop, (Option.some.inj hg').symm⟩
  · rintro ⟨o₀, ho₀, hcond, rfl⟩
    refine ⟨TypeSystemDefinition.objectType o₀, ho₀, ?_⟩
    show (if o₀.name ∈ defaultRootNames ∧ o₀.name ∉ bs.map Prod.snd then none
        else some (TypeSystemDefinition.objectType
          (rewriteDef bs (droppedNamesOf doc) o₀))) =
      some (TypeSystemDefinition.objectType (rewriteDef bs (droppedNamesOf doc) o₀))
    rw [if_neg hcond]

/-- C7 counterexample: on the third test fixture the bound root type
`RootMutation` is rewritten to `extend type Mutation`, but its field list is
*not* carried over unchanged — the field returning the dropped sibling
`Query` is removed. -/
theorem C7_counterexample :
    schemaDefOf cDoc3 = some [(.query, "RootQuery"), (.mutation, "RootMutation")] ∧
    TypeSystemDefinition.objectType ⟨false, "RootMutation", [],
      [⟨"keepThisField", "String", []⟩, ⟨"removeThisField", "Query", []⟩]⟩ ∈ cDoc3 ∧
    TypeSystemDefinition.objectType ⟨true, "Mutation", [],
      [⟨"keepThisField", "String", []⟩, ⟨"removeThisField", "Query", []⟩]⟩ ∉
        defaultRootOperationTypes cDoc3 ∧
    TypeSystemDefinition.objectType ⟨true, "Mutation", [],
      [⟨"keepThisField", "String", []⟩]⟩ ∈ defaultRootOperationTypes cDoc3 := by
  decide

/-- C7 amended: each bound root type definition is rewritten into an
extension of the corresponding default root name carrying its field list
minus any field whose return type names a dropped default-root-named type
(unchanged when nothing is dropped); the schema declaration is removed, and
no non-extension definition with a bound name survives. -/
theorem C7_amended_root_rewrite (doc : DocumentNode)
    (bs : List (OperationType × String)) (o : ObjectTypeDef) (op : OperationType)
    (hs : schemaDefOf doc = some bs)
    (ho : TypeSystemDefinition.objectType o ∈ doc)
    (hb : findBinding bs o.name = some op) :
    (TypeSystemDefinition.objectType
      { isExtension := true, name := defaultRootName op, directives := o.directives,
        fields := o.fields.filter (fun f => f.returnTypeName ∉ droppedNamesOf doc) }
      ∈ defaultRootOperationTypes doc) ∧
    (∀ d ∈ defaultRootOperationTypes doc, isSchemaDef d = false) ∧
    (∀ o' : ObjectTypeDef,
      TypeSystemDefinition.objectType o' ∈ defaultRootOperationTypes doc →
        o'.isExtension = false → o'.name ∉ bs.map Prod.snd) := by
  refine ⟨?_, ?_, ?_⟩
  · rw [mem_defaultRootOperationTypes doc bs hs]
    have hmem : o.name ∈ bs.map Prod.snd := findBinding_some_mem bs o.name op hb
    exact ⟨o, ho, fun hcontra => hcontra.2 hmem,
      by rw [rewriteDef_of_some bs _ o op hb]⟩
  · intro d hd
    rw [mem_defaultRootOperationTypes doc bs hs] at hd
    obtain ⟨o₀, _, _, rfl⟩ := hd
    rfl
  · intro o' ho' hext hmem'
    rw [mem_defaultRootOperationTypes doc bs hs] at ho'
    obtain ⟨o₀, _, _, heq⟩ := ho'
    have ho'eq : o' = rewriteDef bs (droppedNamesOf doc) o₀ := by
      injection heq
    rcases hfb : findBinding bs o₀.name with _ | op₀
    · rw [rewriteDef_of_none _ _ _ hfb] at ho'eq
      have hname : o'.name = o₀.name := by rw [ho'eq]
      rw [hname] at hmem'
      have := mem_findBinding_isSome bs o₀.name hmem'
      rw [hfb] at this
      exact Bool.noConfusion this
    · rw [rewriteDef_of_some _ _ _ _ hfb] at ho'eq
      have : o'.isExtension = true := by rw [ho'eq]
      rw [hext] at this
      exact Bool.noConfusion this

theorem C7_amended_witness :
    TypeSystemDefinition.objectType ⟨true, "Query", [], [⟨"product", "Product", []⟩]⟩ ∈
      defaultRootOperationTypes cDoc1 := by
  have h := C7_amended_root_rewrite cDoc1
    [(.query, "RootQuery"), (.mutation, "RootMutation")]
    ⟨false, "RootQuery", [], [⟨"product", "Product", []⟩]⟩ .query rfl (by decide) rfl
  exact h.1

/-- C8: with a schema declaration present, a top-level definition using a
default root type name that was not designated is recorded as dropped; no
non-extension definition in the output uses a default root name; and every
field of every output definition avoids the dropped names (one-hop check). -/
theorem C8_collision_drop (doc : DocumentNode) (bs : List (OperationType × String))
    (hs : schemaDefOf doc = some bs) :
    (∀ o : ObjectTypeDef, TypeSystemDefinition.objectType o ∈ doc →
      o.name ∈ defaultRootNames → o.name ∉ bs.map Prod.snd →
        o.name ∈ droppedNamesOf doc) ∧
    (∀ o' : ObjectTypeDef,
      TypeSystemDefinition.objectType o' ∈ defaultRootOperationTypes doc →
        o'.isExtension = false → o'.name ∉ defaultRootNames) ∧
    (∀ o' : ObjectTypeDef,
      TypeSystemDefinition.objectType o' ∈ defaultRootOperationTypes doc →
        ∀ f ∈ o'.fields, f.returnTypeName ∉ droppedNamesOf doc) := by
  refine ⟨?_, ?_, ?_⟩
  · intro o ho hdef hnb
    simp only [droppedNamesOf, hs]
    refine List.mem_filterMap.mpr ⟨.objectType o, ho, ?_⟩
    show (if o.name ∈ defaultRootNames ∧ o.name ∉ bs.map Prod.snd
      then some o.name else none) = some o.name
    rw [if_pos (And.intro hdef hnb)]
  · intro o' ho' hext hdef
    rw [mem_defaultRootOperationTypes doc bs hs] at ho'
    obtain ⟨o₀, _, hcond, heq⟩ := ho'
    have ho'eq : o' = rewriteDef bs (droppedNamesOf doc) o₀ := by
      injection heq
    push_neg at hcond
    rcases hfb : findBinding bs o₀.name with _ | op₀
    · rw [rewriteDef_of_none _ _ _ hfb] at ho'eq
      have hname : o'.name = o₀.name := by rw [ho'eq]
      have hbound : o₀.name ∈ bs.map Prod.snd := hcond (hname ▸ hdef)
      have := mem_findBinding_isSome bs o₀.name hbound
      rw [hfb] at this
      exact Bool.noConfusion this
    · rw [rewriteDef_of_some _ _ _ _ hfb] at ho'eq
      have : o'.isExtension = true := by rw [ho'eq]
      rw [hext] at this
      exact Bool.noConfusion this
  · intro o' ho' f hf
    rw [mem_defaultRootOperationTypes doc bs hs] at ho'
    obtain ⟨o₀, _, _, heq⟩ := ho'
    have ho'eq : o' = rewriteDef bs (droppedNamesOf doc) o₀ := by
      injection heq
    have hfields : o'.fields =
        o₀.fields.filter (fun f => f.returnTypeName ∉ droppedNamesOf doc) := by
      rw [ho'eq, rewriteDef_fields]
    rw [hfields] at hf
    have := List.of_mem_filter hf
    simpa using this

theorem C8_witness :
    "Query" ∈ droppedNamesOf cDoc2 ∧ "String" ∉ droppedNamesOf cDoc2 := by
  have h := C8_collision_drop cDoc2 [(.query, "RootQuery")] rfl
  refine ⟨?_, ?_⟩
  · exact h.1 ⟨false, "Query", [], [⟨"removeThisEntireType", "String", []⟩]⟩
      (by decide) (by decide) (by decide)
  · exact h.2.2 ⟨false, "Product", [], [⟨"sku", "String", []⟩]⟩ (by decide)
      ⟨"sku", "String", []⟩ (by decide)

/-- Closed form of the strip fold. -/
theorem stripExternal_eq (doc : DocumentNode) (s : String) :
    stripExternalFieldsFromTypeDefs doc s =
      (doc.map (fun d =>
        match d with
        | .schemaDef ops => .schemaDef ops
        | .objectType o =>
            .objectType { o with fields := o.fields.filter (fun f => ¬ isExternalField f) }),
       doc.flatMap (fun d =>
        match d with
        | .schemaDef _ => []
        | .objectType o =>
            (o.fields.filter isExternalField).map
              (fun f => { field := f, parentTypeName := o.name, serviceName := s }))) := by
  have gen : ∀ (l : DocumentNode) (acc : DocumentNode × List StrippedFieldRecord),
      l.foldl
        (fun acc d =>
          match d with
          | .schemaDef ops => (acc.1 ++ [.schemaDef ops], acc.2)
          | .objectType o =>
              (acc.1 ++ [.objectType { o with fields := o.fields.filter (fun f => ¬ isExternalField f) }],
               acc.2 ++ (o.fields.filter isExternalField).map
                 (fun f => { field := f, parentTypeName := o.name, serviceName := s })))
        acc =
      (acc.1 ++ l.map (fun d =>
        match d with
        | .schemaDef ops => .schemaDef ops
        | .objectType o =>
            .objectType { o with fields := o.fields.filter (fun f => ¬ isExternalField f) }),
       acc.2 ++ l.flatMap (fun d =>
        match d with
        | .schemaDef _ => []
        | .objectType o =>
            (o.fields.filter isExternalField).map
              (fun f => { field := f, parentTypeName := o.name, serviceName := s }))) := by
    intro l
    induction l with
    | nil => intro acc; simp
    | cons d rest ih =>
        intro acc
        cases d with
        | schemaDef ops =>
            simp only [List.foldl_cons, ih, List.map_cons, List.flatMap_cons]
            simp
        | objectType o =>
            simp only [List.foldl_cons, ih, List.map_cons, List.flatMap_cons]
            simp
  rw [stripExternalFieldsFromTypeDefs, gen]
  simp

/-- C9: stripping removes exactly the external-flagged fields — the output
document has the same definitions with only those fields filtered out (nodes
retained even when field-less), no external field remains, and the record
count equals the number of external-flagged fields. -/
theorem C9_strip_external (doc : DocumentNode) (s : String) :
    ((stripExternalFieldsFromTypeDefs doc s).1 =
      doc.map (fun d =>
        match d with
        | .schemaDef ops => .schemaDef ops
        | .objectType o =>
            .objectType { o with fields := o.fields.filter (fun f => ¬ isExternalField f) })) ∧
    (stripExternalFieldsFromTypeDefs doc s).2.length = countExternalFields doc ∧
    (∀ o : ObjectTypeDef,
      TypeSystemDefinition.objectType o ∈ (stripExternalFieldsFromTypeDefs doc s).1 →
        ∀ f ∈ o.fields, isExternalField f = false) := by
  have he := stripExternal_eq doc s
  refine ⟨congrArg Prod.fst he, ?_, ?_⟩
  · rw [show (stripExternalFieldsFromTypeDefs doc s).2 = _ from congrArg Prod.snd he]
    rw [List.length_flatMap, countExternalFields]
    congr 1
    apply List.map_congr_left
    intro d _
    cases d with
    | schemaDef ops => rfl
    | objectType o => simp
  · intro o ho f hf
    rw [congrArg Prod.fst he] at ho
    obtain ⟨d₀, _, hd₀⟩ := List.mem_map.mp ho
    cases d₀ with
    | schemaDef ops => simp at hd₀
    | objectType o₀ =>
        simp only [TypeSystemDefinition.objectType.injEq] at hd₀
        have hfields : o.fields = o₀.fields.filter (fun f => ¬ isExternalField f) := by
          rw [← hd₀]
        rw [hfields] at hf
        have := List.of_mem_filter hf
        simpa using this

theorem C9_strip_witness :
    isExternalField ⟨"product", "Product", []⟩ = false ∧
    (stripExternalFieldsFromTypeDefs cStripDoc "serviceA").2.length =
      countExternalFields cStripDoc := by
  have h := C9_strip_external cStripDoc "serviceA"
  refine ⟨?_, h.2.1⟩
  exact h.2.2 ⟨false, "Query", [], [⟨"product", "Product", []⟩]⟩ (by decide)
    ⟨"product", "Product", []⟩ (by decide)

end ApolloCore
